import Mathlib

/-!
Verification of the spine (elementary-collapse) engine of the Aleph library,
`include/aleph/topology/Spine.hh`.

The simplex and simplicial-complex container classes are not part of the
sources under review (the spec treats them as external collaborators), so
they are modelled from the spec: a simplex is a finite non-empty set of
vertex identifiers, embedded as a strictly sorted `List ℕ` (identity is the
vertex set; the `[]` value plays the role of the invalid/empty simplex that
`Simplex()` denotes in the code); a simplicial complex is a list of
simplices in its deterministic enumeration order; boundary enumeration
lists the codimension-1 faces in a fixed deterministic order (dropping the
i-th vertex for i = 0, 1, ...).

The iteration order of the C++ `std::unordered_map` that stores admissible
pairs is not specified by the source; the embedding fixes a deterministic
realisation of it as an association list whose `begin()` is the head and
whose `insert` appends when the key is absent.  All container orders are
thereby fixed, which is the setting the spec itself demands for
reproducibility.
-/

namespace Aleph

abbrev Vertex := ℕ

/-- Modelled from the spec: a simplex is a finite, non-empty set of vertex
identifiers; embedded as a strictly sorted list.  `[]` is the empty
(invalid) simplex that the code writes `Simplex()`. -/
abbrev Simplex := List Vertex

/-- Modelled from the spec: a simplicial complex is a collection of
simplices with a deterministic enumeration order; embedded as a list. -/
abbrev SimplicialComplex := List Simplex

/-- Dimension of a simplex: number of vertices minus one. -/
def dimension (s : Simplex) : ℕ := s.length - 1

/-- Helper for `boundary`: all lists obtained by dropping one element,
in order of the dropped position. -/
def boundaryAux : Simplex → List Simplex
  | [] => []
  | v :: vs => vs :: (boundaryAux vs).map (fun f => v :: f)

/-- Modelled from the spec: boundary enumeration of a simplex lists its
codimension-1 faces in a fixed deterministic order; a vertex has an empty
boundary (the code never iterates boundaries of 0-dimensional simplices). -/
def boundary (s : Simplex) : List Simplex :=
  if s.length ≤ 1 then [] else boundaryAux s

/-- The coface map of `Spine.hh`: `std::unordered_map<Simplex,
std::unordered_set<Simplex>>`, embedded as an association list with finite
sets of cofaces as values (keys are unique by construction). -/
abbrev CofaceMap := List (Simplex × Finset Simplex)

/-- Key lookup on the association-list model (`find` / `at`). -/
def lookup : CofaceMap → Simplex → Option (Finset Simplex)
  | [], _ => none
  | p :: ps, s => if p.1 = s then some p.2 else lookup ps s

/-- Store a value under a key: replace the (unique) existing entry, or
append a new one (`operator[]` followed by assignment). -/
def setEntry : CofaceMap → Simplex → Finset Simplex → CofaceMap
  | [], s, A => [(s, A)]
  | p :: ps, s, A => if p.1 = s then (s, A) :: ps else p :: setEntry ps s A

/-- Delete the entry of a key (`unordered_map::erase`). -/
def eraseEntry : CofaceMap → Simplex → CofaceMap
  | [], _ => []
  | p :: ps, s => if p.1 = s then eraseEntry ps s else p :: eraseEntry ps s

/-- One step of the construction loop of `buildCofaceMap`: ensure an entry
for `s` exists, then add `s` to the coface set of every boundary face of
`s` (creating entries on demand, as `operator[]` does). -/
def buildStep (m : CofaceMap) (s : Simplex) : CofaceMap :=
  let m1 := if (lookup m s).isSome then m else setEntry m s ∅
  (boundary s).foldl
    (fun m2 f => setEntry m2 f (insert s ((lookup m2 f).getD ∅))) m1

/-- `buildCofaceMap` of `Spine.hh`, lines 241-260. -/
def buildCofaceMap (K : SimplicialComplex) : CofaceMap :=
  K.foldl buildStep []

/-- `isPrincipal` of `Spine.hh`, lines 268-271: a simplex is principal when
its stored coface set is empty (`cofaces.at(s).empty()`; the total model
reads an absent entry as the empty set). -/
def isPrincipal (m : CofaceMap) (s : Simplex) : Prop :=
  (lookup m s).getD ∅ = ∅

instance (m : CofaceMap) (s : Simplex) : Decidable (isPrincipal m s) :=
  inferInstanceAs (Decidable (_ = _))

/-- Scanning loop of `getFreeFace`: return the first face `f` whose coface
set has exactly one element, namely `s`. -/
def getFreeFaceAux (m : CofaceMap) (s : Simplex) : List Simplex → Simplex
  | [] => []
  | f :: fs =>
      if ((lookup m f).getD ∅).card = 1 ∧ s ∈ (lookup m f).getD ∅ then f
      else getFreeFaceAux m s fs

/-- `getFreeFace` of `Spine.hh`, lines 281-296. -/
def getFreeFace (m : CofaceMap) (s : Simplex) : Simplex :=
  if isPrincipal m s then getFreeFaceAux m s (boundary s) else []

/-- `std::unordered_map::insert`: add `(s, t)` only when no entry with key
`s` exists; the embedding appends at the end. -/
def insertAdmissible (adm : List (Simplex × Simplex)) (s t : Simplex) :
    List (Simplex × Simplex) :=
  if s ∈ adm.map Prod.fst then adm else adm ++ [(s, t)]

/-- Loop body shared by `getPrincipalFaces` and the local re-probing steps
of `spine`: compute `getFreeFace` and insert the pair when a free face was
found. -/
def considerFace (m : CofaceMap) (adm : List (Simplex × Simplex))
    (s : Simplex) : List (Simplex × Simplex) :=
  let f := getFreeFace m s
  if f = [] then adm else insertAdmissible adm s f

/-- `getPrincipalFaces` of `Spine.hh`, lines 304-319. -/
def getPrincipalFaces (m : CofaceMap) (K : SimplicialComplex) :
    List (Simplex × Simplex) :=
  K.foldl (considerFace m) []

/-- `std::unordered_map::erase` by key on the association-list model. -/
def eraseKey : List (Simplex × Simplex) → Simplex → List (Simplex × Simplex)
  | [], _ => []
  | p :: ps, s => if p.1 = s then eraseKey ps s else p :: eraseKey ps s

/-- The `removeSimplices` predicate of `spine` (lines 349-353): erase both
`s` and `t` from the coface set stored for `f`.  An absent key leaves the
map unchanged (the code would throw; the invariant proofs show the key is
always present). -/
def eraseCofaceEntry (m : CofaceMap) (f s t : Simplex) : CofaceMap :=
  match lookup m f with
  | none => m
  | some A => setEntry m f ((A.erase s).erase t)

/-- Coface-map mutation of one collapse (lines 349-361): drop `s` and `t`
from the coface sets of all their boundary faces, then delete the entries
of `s` and `t` themselves. -/
def collapseCofaces (m : CofaceMap) (s t : Simplex) : CofaceMap :=
  let m1 := (boundary s).foldl (fun m2 f => eraseCofaceEntry m2 f s t) m
  let m2 := (boundary t).foldl (fun m3 f => eraseCofaceEntry m3 f s t) m1
  eraseEntry (eraseEntry m2 s) t

/-- Re-probe step 1 (lines 370-382): faces of the removed principal simplex
`s`, skipping the removed free face `t`. -/
def reprobePrincipal (m : CofaceMap) (s t : Simplex)
    (adm : List (Simplex × Simplex)) : List (Simplex × Simplex) :=
  (boundary s).foldl (fun a f => if f = t then a else considerFace m a f) adm

/-- Re-probe step 2 (lines 386-395): faces of the removed free face `t`. -/
def reprobeFree (m : CofaceMap) (t : Simplex)
    (adm : List (Simplex × Simplex)) : List (Simplex × Simplex) :=
  (boundary t).foldl (considerFace m) adm

/-- State of the collapse loop: working complex, coface map, admissible
pairs. -/
abbrev SpineState := SimplicialComplex × CofaceMap × List (Simplex × Simplex)

/-- One iteration of the `while` loop of `spine` (lines 335-403); the empty
admissible set is a fixpoint (loop exit). -/
def collapseBody (st : SpineState) : SpineState :=
  match st with
  | (L, m, []) => (L, m, [])
  | (L, m, (s, t) :: rest) =>
      let L2 := (L.erase s).erase t
      let adm1 := eraseKey ((s, t) :: rest) s
      let m2 := collapseCofaces m s t
      let adm2 := reprobeFree m2 t (reprobePrincipal m2 s t adm1)
      let adm3 := if adm2 = [] then getPrincipalFaces m2 L2 else adm2
      (L2, m2, adm3)

/-- Initial state of `spine`: the input complex, its coface map and the
seeded admissible set. -/
def initState (K : SimplicialComplex) : SpineState :=
  (K, buildCofaceMap K, getPrincipalFaces (buildCofaceMap K) K)

/-- The state of the collapse loop after `n` iterations. -/
def spineState (K : SimplicialComplex) (n : ℕ) : SpineState :=
  collapseBody^[n] (initState K)

/-- `spine` of `Spine.hh`, lines 329-406.  Each genuine iteration removes
two simplices, so `K.length` iterations always reach the loop exit. -/
def spine (K : SimplicialComplex) : SimplicialComplex :=
  (spineState K K.length).1

namespace dumb

/-- Inner scan of `dumb::principalFaces`, step 1: the face `f` of `s` is
rejected when some other simplex one dimension above `f` contains it. -/
def isFaceOfOther (L : SimplicialComplex) (s f : Simplex) : Prop :=
  ∃ u ∈ L, u ≠ s ∧ u.length = f.length + 1 ∧ f ⊆ u

instance (L : SimplicialComplex) (s f : Simplex) :
    Decidable (isFaceOfOther L s f) :=
  List.decidableBEx _ L

/-- Boundary scan of `dumb::principalFaces`, step 1: first free face. -/
def freeFaceAux (L : SimplicialComplex) (s : Simplex) :
    List Simplex → Simplex
  | [] => []
  | f :: fs => if isFaceOfOther L s f then freeFaceAux L s fs else f

/-- First free boundary face of `s` in `L`, or `[]`. -/
def freeFace (L : SimplicialComplex) (s : Simplex) : Simplex :=
  freeFaceAux L s (boundary s)

/-- Step 1 body of `dumb::principalFaces`: skip vertices, record the first
free face when one exists. -/
def considerSimplex (L : SimplicialComplex) (adm : List (Simplex × Simplex))
    (s : Simplex) : List (Simplex × Simplex) :=
  if dimension s = 0 then adm
  else
    let f := freeFace L s
    if f = [] then adm else insertAdmissible adm s f

/-- `dumb::principalFaces` of `Spine.hh`, lines 116-190 (with the
`M = L` overwrite of the FIXME block, so freeness is tested against the
whole complex). -/
def principalFaces (L : SimplicialComplex) : List (Simplex × Simplex) :=
  L.foldl (fun adm s => (boundary s).foldl eraseKey adm)
    (L.foldl (considerSimplex L) [])

/-- Fuel-indexed loop of `dumb::spine`. -/
def spineAux : ℕ → SimplicialComplex → SimplicialComplex
  | 0, L => L
  | n + 1, L =>
      match principalFaces L with
      | [] => L
      | (s, t) :: _ => spineAux n ((L.erase s).erase t)

/-- `dumb::spine` of `Spine.hh`, lines 206-223. -/
def spine (K : SimplicialComplex) : SimplicialComplex :=
  spineAux K.length K

end dumb

/-- Modelled from the spec: face-closedness — every boundary face of a
member is a member. -/
def FaceClosed (L : SimplicialComplex) : Prop :=
  ∀ s ∈ L, ∀ f ∈ boundary s, f ∈ L

instance (L : SimplicialComplex) : Decidable (FaceClosed L) :=
  List.decidableBAll _ L

/-- Modelled from the spec: a valid simplicial complex — duplicate-free
enumeration, members are non-empty strictly sorted vertex lists, and the
complex is closed under taking faces. -/
def WF (L : SimplicialComplex) : Prop :=
  L.Nodup ∧ (∀ s ∈ L, s ≠ [] ∧ List.Sorted (· < ·) s) ∧ FaceClosed L

instance (L : SimplicialComplex) : Decidable (WF L) := by
  unfold WF; infer_instance

/-- The mathematical coface set: all members of `L` having `x` as an
immediate (codimension-1) face. -/
def cofacesOf (L : SimplicialComplex) (x : Simplex) : Finset Simplex :=
  L.toFinset.filter (fun u => x ∈ boundary u)

/-- Exactness of a coface map for a complex: defined entries are exactly
the live simplices, and each stores precisely the current immediate
cofaces. -/
def CofacesExact (m : CofaceMap) (L : SimplicialComplex) : Prop :=
  ∀ x, (x ∈ L → lookup m x = some (cofacesOf L x)) ∧
    (x ∉ L → lookup m x = none)

/-- Validity of the admissible set: keys are unique, and every recorded
pair is a live principal simplex with a live free face. -/
def AdmOK (L : SimplicialComplex) (adm : List (Simplex × Simplex)) : Prop :=
  (adm.map Prod.fst).Nodup ∧
    ∀ p ∈ adm, p.1 ∈ L ∧ p.2 ∈ boundary p.1 ∧
      cofacesOf L p.1 = ∅ ∧ cofacesOf L p.2 = {p.1}

/-- Full loop invariant on spine states. -/
def Inv (st : SpineState) : Prop :=
  WF st.1 ∧ CofacesExact st.2.1 st.1 ∧ AdmOK st.1 st.2.2

/-- The full 2-simplex with all of its faces (7 simplices). -/
def triangleComplex : SimplicialComplex :=
  [[0, 1, 2], [0, 1], [0, 2], [1, 2], [0], [1], [2]]

/-- The hollow triangle: boundary cycle only, no 2-simplex. -/
def hollowTriangle : SimplicialComplex :=
  [[0, 1], [0, 2], [1, 2], [0], [1], [2]]

/-- A face-closed complex on five vertices on which the incremental engine
and the naive reducer stop at different sizes: greedy collapsing is not
confluent, and the two engines select different collapse pairs. -/
def Kdiv : SimplicialComplex :=
  [[0], [1], [2], [3], [4],
   [0, 2], [0, 3], [0, 4], [1, 2], [1, 3], [1, 4], [2, 3], [2, 4], [3, 4],
   [0, 2, 4], [0, 3, 4], [1, 2, 3], [1, 2, 4]]

/-! ### Basic facts about the boundary enumeration -/

theorem mem_boundaryAux_sublist {f s : Simplex} (h : f ∈ boundaryAux s) :
    f.Sublist s := by
  induction s generalizing f with
  | nil => simp [boundaryAux] at h
  | cons v vs ih =>
    simp only [boundaryAux, List.mem_cons, List.mem_map] at h
    rcases h with rfl | ⟨g, hg, rfl⟩
    · exact List.sublist_cons_self _ _
    · exact (ih hg).cons₂ v

theorem mem_boundaryAux_length {f s : Simplex} (h : f ∈ boundaryAux s) :
    f.length + 1 = s.length := by
  induction s generalizing f with
  | nil => simp [boundaryAux] at h
  | cons v vs ih =>
    simp only [boundaryAux, List.mem_cons, List.mem_map] at h
    rcases h with rfl | ⟨g, hg, rfl⟩
    · rfl
    · simpa using ih hg

theorem sublist_mem_boundaryAux {f s : Simplex} (hsub : f.Sublist s)
    (hlen : f.length + 1 = s.length) : f ∈ boundaryAux s := by
  induction s generalizing f with
  | nil => simp at hlen
  | cons v vs ih =>
    cases hsub with
    | cons _ h =>
      have : f = vs := h.eq_of_length (by simpa using hlen)
      subst this
      simp [boundaryAux]
    | cons₂ _ h =>
      rename_i f2
      have : f2 ∈ boundaryAux vs := ih h (by simpa using hlen)
      simp only [boundaryAux, List.mem_cons, List.mem_map]
      exact Or.inr ⟨f2, this, rfl⟩

theorem mem_boundary_sublist {f s : Simplex} (h : f ∈ boundary s) :
    f.Sublist s := by
  unfold boundary at h
  split at h
  · simp at h
  · exact mem_boundaryAux_sublist h

theorem mem_boundary_length {f s : Simplex} (h : f ∈ boundary s) :
    f.length + 1 = s.length := by
  unfold boundary at h
  split at h
  · simp at h
  · exact mem_boundaryAux_length h

theorem mem_boundary_iff {f s : Simplex} (hs : 2 ≤ s.length) :
    f ∈ boundary s ↔ f.Sublist s ∧ f.length + 1 = s.length := by
  constructor
  · exact fun h => ⟨mem_boundary_sublist h, mem_boundary_length h⟩
  · rintro ⟨hsub, hlen⟩
    unfold boundary
    split
    · omega
    · exact sublist_mem_boundaryAux hsub hlen

theorem mem_boundary_subset {f s : Simplex} (h : f ∈ boundary s) : f ⊆ s :=
  (mem_boundary_sublist h).subset

theorem mem_boundary_ne {f s : Simplex} (h : f ∈ boundary s) : f ≠ s := by
  intro hEq
  have := mem_boundary_length h
  rw [hEq] at this
  omega

theorem mem_boundary_sorted {f s : Simplex} (h : f ∈ boundary s)
    (hs : List.Sorted (· < ·) s) : List.Sorted (· < ·) f :=
  hs.sublist (mem_boundary_sublist h)

theorem mem_boundary_ne_nil {f s : Simplex} (h : f ∈ boundary s) : f ≠ [] := by
  intro hEq
  unfold boundary at h
  split at h
  · simp at h
  · have := mem_boundaryAux_length h
    subst hEq
    simp at this
    omega

/-- A strict sublist two or more dimensions down factors through some
boundary face. -/
theorem exists_boundaryAux_between {s u : Simplex} (hsub : s.Sublist u)
    (hlen : s.length + 2 ≤ u.length) :
    ∃ f ∈ boundaryAux u, s.Sublist f := by
  induction u generalizing s with
  | nil => simp at hlen
  | cons v vs ih =>
    cases hsub with
    | cons _ h =>
      exact ⟨vs, by simp [boundaryAux], h⟩
    | cons₂ _ h =>
      rename_i s2
      obtain ⟨g, hg, hsg⟩ := ih h (by simpa using hlen)
      refine ⟨v :: g, ?_, hsg.cons₂ v⟩
      simp only [boundaryAux, List.mem_cons, List.mem_map]
      exact Or.inr ⟨g, hg, rfl⟩

theorem exists_boundary_between {s u : Simplex} (hsub : s.Sublist u)
    (hlen : s.length + 2 ≤ u.length) :
    ∃ f ∈ boundary u, s.Sublist f := by
  have : boundary u = boundaryAux u := by
    unfold boundary
    split
    · omega
    · rfl
  rw [this]
  exact exists_boundaryAux_between hsub hlen

/-! ### Sorted lists: subsets are sublists -/

theorem sorted_subset_sublist :
    ∀ {s u : List ℕ}, List.Sorted (· < ·) s → List.Sorted (· < ·) u →
      s ⊆ u → s.Sublist u := by
  intro s u hs hu hsub
  induction u generalizing s with
  | nil =>
    cases s with
    | nil => exact List.Sublist.refl _
    | cons b s2 => exact absurd (hsub (List.mem_cons_self b s2)) (by simp)
  | cons a u2 ih =>
    cases s with
    | nil => exact List.nil_sublist _
    | cons b s2 =>
      rcases List.sorted_cons.mp hs with ⟨hb, hs2⟩
      rcases List.sorted_cons.mp hu with ⟨ha, hu2⟩
      by_cases hba : b = a
      · subst hba
        have hs2sub : s2 ⊆ u2 := by
          intro x hx
          have hxs : x ∈ b :: u2 := hsub (List.mem_cons_of_mem _ hx)
          rcases List.mem_cons.mp hxs with hxb | hxu
          · exact absurd (hxb ▸ hb x hx) (lt_irrefl x)
          · exact hxu
        exact (ih hs2 hu2 hs2sub).cons₂ b
      · have hsu2 : (b :: s2) ⊆ u2 := by
          intro x hx
          rcases List.mem_cons.mp (hsub hx) with hxa | hxu
          · exfalso
            have hbu : b ∈ a :: u2 := hsub (List.mem_cons_self b s2)
            rcases List.mem_cons.mp hbu with hba2 | hbu2
            · exact hba hba2
            · have hab : a < b := ha b hbu2
              rcases List.mem_cons.mp hx with hxb | hxs2
              · exact hba (by omega)
              · have hbx : b < x := hb x hxs2
                omega
          · exact hxu
        exact (ih hs hu2 hsu2).cons _

theorem sorted_subset_length_le {s u : List ℕ}
    (hs : List.Sorted (· < ·) s) (hu : List.Sorted (· < ·) u)
    (hsub : s ⊆ u) : s.length ≤ u.length :=
  (sorted_subset_sublist hs hu hsub).length_le

theorem sorted_subset_eq {s u : List ℕ}
    (hs : List.Sorted (· < ·) s) (hu : List.Sorted (· < ·) u)
    (hsub : s ⊆ u) (hlen : u.length ≤ s.length) : s = u :=
  (sorted_subset_sublist hs hu hsub).eq_of_length
    (le_antisymm (sorted_subset_length_le hs hu hsub) hlen)

/-! ### The mathematical coface relation -/

theorem mem_cofacesOf {L : SimplicialComplex} {x u : Simplex} :
    u ∈ cofacesOf L x ↔ u ∈ L ∧ x ∈ boundary u := by
  unfold cofacesOf
  simp

theorem cofacesOf_eq_empty_iff {L : SimplicialComplex} {x : Simplex} :
    cofacesOf L x = ∅ ↔ ∀ u ∈ L, x ∉ boundary u := by
  constructor
  · intro h u hu hx
    have : u ∈ cofacesOf L x := mem_cofacesOf.mpr ⟨hu, hx⟩
    simp [h] at this
  · intro h
    ext u
    simp only [Finset.not_mem_empty, iff_false, mem_cofacesOf]
    rintro ⟨hu, hx⟩
    exact h u hu hx

theorem wf_mem_sorted {L : SimplicialComplex} (hWF : WF L) {s : Simplex}
    (hs : s ∈ L) : List.Sorted (· < ·) s :=
  (hWF.2.1 s hs).2

theorem wf_mem_ne_nil {L : SimplicialComplex} (hWF : WF L) {s : Simplex}
    (hs : s ∈ L) : s ≠ [] :=
  (hWF.2.1 s hs).1

/-- In a face-closed complex, a principal simplex (no immediate cofaces) is
maximal: no member strictly contains it. -/
theorem principal_maximal {L : SimplicialComplex} (hWF : WF L) {x : Simplex}
    (hx : x ∈ L) (hcof : cofacesOf L x = ∅) :
    ∀ u ∈ L, x ⊆ u → u = x := by
  suffices H : ∀ n, ∀ u ∈ L, x ⊆ u → u.length ≤ n → u = x by
    exact fun u hu hsub => H u.length u hu hsub le_rfl
  intro n
  induction n with
  | zero =>
    intro u hu hsub hlen
    exfalso
    have : u = [] := List.length_eq_zero.mp (by omega)
    subst this
    exact wf_mem_ne_nil hWF hx (List.subset_nil.mp hsub)
  | succ n ih =>
    intro u hu hsub hlen
    have hxs : List.Sorted (· < ·) x := wf_mem_sorted hWF hx
    have hus : List.Sorted (· < ·) u := wf_mem_sorted hWF hu
    have hsl : x.Sublist u := sorted_subset_sublist hxs hus hsub
    have hxlen : 1 ≤ x.length := by
      have := wf_mem_ne_nil hWF hx
      cases x with
      | nil => exact absurd rfl this
      | cons a l => simp
    rcases Nat.lt_or_ge x.length u.length with hlt | hge
    · rcases Nat.lt_or_ge (x.length + 1) u.length with hlt2 | hge2
      · -- at least two dimensions down: pass through a boundary face
        obtain ⟨f, hf, hxf⟩ := exists_boundary_between hsl (by omega)
        have hfL : f ∈ L := hWF.2.2 u hu f hf
        have hflen : f.length + 1 = u.length := mem_boundary_length hf
        have : f = x := ih f hfL hxf.subset (by omega)
        subst this
        omega
      · -- exactly one dimension down: u is an immediate coface of x
        exfalso
        have hxb : x ∈ boundary u :=
          (mem_boundary_iff (by omega)).mpr ⟨hsl, by omega⟩
        exact cofacesOf_eq_empty_iff.mp hcof u hu hxb
    · exact hsl.eq_of_length (le_antisymm hsl.length_le hge) ▸ rfl

/-- In a face-closed complex, if the only immediate coface of `t` is the
principal simplex `s`, then `s` is also the only member strictly
containing `t`. -/
theorem free_face_carrier {L : SimplicialComplex} (hWF : WF L)
    {s t : Simplex} (hs : s ∈ L) (hcs : cofacesOf L s = ∅)
    (hct : cofacesOf L t = {s}) :
    ∀ u ∈ L, t ⊆ u → u = t ∨ u = s := by
  suffices H : ∀ n, ∀ u ∈ L, t ⊆ u → u.length ≤ n → u = t ∨ u = s by
    exact fun u hu hsub => H u.length u hu hsub le_rfl
  intro n
  induction n with
  | zero =>
    intro u hu hsub hlen
    exfalso
    have hu0 : u = [] := List.length_eq_zero.mp (by omega)
    subst hu0
    have ht0 : t = [] := List.subset_nil.mp hsub
    subst ht0
    -- the empty simplex is in no boundary, contradicting `cofaces = {s}`
    have hsmem : s ∈ cofacesOf L ([] : Simplex) := by
      rw [hct]; exact Finset.mem_singleton_self s
    exact mem_boundary_ne_nil (mem_cofacesOf.mp hsmem).2 rfl
  | succ n ih =>
    intro u hu hsub hlen
    have htL : t ∈ L := by
      have hsmem : s ∈ cofacesOf L t := by
        rw [hct]; exact Finset.mem_singleton_self s
      have h2 := (mem_cofacesOf.mp hsmem).2
      exact hWF.2.2 s hs t h2
    have hts : List.Sorted (· < ·) t := wf_mem_sorted hWF htL
    have hus : List.Sorted (· < ·) u := wf_mem_sorted hWF hu
    have hsl : t.Sublist u := sorted_subset_sublist hts hus hsub
    rcases Nat.lt_or_ge t.length u.length with hlt | hge
    · rcases Nat.lt_or_ge (t.length + 1) u.length with hlt2 | hge2
      · obtain ⟨f, hf, htf⟩ := exists_boundary_between hsl (by omega)
        have hfL : f ∈ L := hWF.2.2 u hu f hf
        have hflen : f.length + 1 = u.length := mem_boundary_length hf
        rcases ih f hfL htf.subset (by omega) with hft | hfs
        · subst hft; omega
        · -- f = s sits strictly inside u, contradicting maximality of s
          exfalso
          subst hfs
          have hus2 := principal_maximal hWF hs hcs u hu (mem_boundary_subset hf)
          exact mem_boundary_ne hf hus2.symm
      · -- u is an immediate coface of t, hence u = s
        have htb : t ∈ boundary u :=
          (mem_boundary_iff ?_).mpr ⟨hsl, by omega⟩
        · have : u ∈ cofacesOf L t := mem_cofacesOf.mpr ⟨hu, htb⟩
          rw [hct, Finset.mem_singleton] at this
          exact Or.inr this
        · have h1 : 1 ≤ t.length := by
            have := wf_mem_ne_nil hWF htL
            cases t with
            | nil => exact absurd rfl this
            | cons a l => simp
          omega
    · exact Or.inl (hsl.eq_of_length (le_antisymm hsl.length_le hge)).symm

/-! ### Removing a collapse pair -/

theorem mem_erase_pair {L : SimplicialComplex} (hND : L.Nodup)
    {s t x : Simplex} :
    x ∈ (L.erase s).erase t ↔ x ∈ L ∧ x ≠ s ∧ x ≠ t := by
  rw [(hND.erase s).mem_erase_iff, hND.mem_erase_iff]
  tauto

theorem cofacesOf_erase_pair {L : SimplicialComplex} (hND : L.Nodup)
    {s t : Simplex} (x : Simplex) :
    cofacesOf ((L.erase s).erase t) x = ((cofacesOf L x).erase s).erase t := by
  ext u
  simp only [mem_cofacesOf, Finset.mem_erase, mem_erase_pair hND]
  tauto

/-- Collapsing an admissible pair preserves well-formedness, in particular
face-closedness. -/
theorem wf_erase_pair {L : SimplicialComplex} (hWF : WF L) {s t : Simplex}
    (hs : s ∈ L) (ht : t ∈ L) (htb : t ∈ boundary s)
    (hcs : cofacesOf L s = ∅) (hct : cofacesOf L t = {s}) :
    WF ((L.erase s).erase t) := by
  refine ⟨(hWF.1.erase s).erase t, ?_, ?_⟩
  · intro u hu
    exact hWF.2.1 u ((mem_erase_pair hWF.1).mp hu).1
  · intro u hu f hf
    rcases (mem_erase_pair hWF.1).mp hu with ⟨huL, hus, hut⟩
    have hfL : f ∈ L := hWF.2.2 u huL f hf
    rw [mem_erase_pair hWF.1]
    refine ⟨hfL, ?_, ?_⟩
    · intro hEq
      subst hEq
      have := principal_maximal hWF hs hcs u huL (mem_boundary_subset hf)
      exact mem_boundary_ne hf this.symm
    · intro hEq
      subst hEq
      rcases free_face_carrier hWF hs hcs hct u huL (mem_boundary_subset hf)
        with h1 | h2
      · exact mem_boundary_ne hf h1.symm
      · exact hus h2
  -- (termination of the structure: nothing further)

theorem length_erase_pair {L : SimplicialComplex} {s t : Simplex}
    (hs : s ∈ L) (ht : t ∈ L) (hst : t ≠ s) :
    ((L.erase s).erase t).length + 2 = L.length := by
  have ht2 : t ∈ L.erase s := (List.mem_erase_of_ne hst).mpr ht
  have h1 : (L.erase s).length = L.length - 1 := List.length_erase_of_mem hs
  have h2 : ((L.erase s).erase t).length = (L.erase s).length - 1 :=
    List.length_erase_of_mem ht2
  have h3 : 1 ≤ L.length := List.length_pos_of_mem hs
  have h4 : 1 ≤ (L.erase s).length := List.length_pos_of_mem ht2
  omega

/-! ### Association-list map operations -/

theorem lookup_setEntry (m : CofaceMap) (s : Simplex) (A : Finset Simplex)
    (x : Simplex) :
    lookup (setEntry m s A) x = if x = s then some A else lookup m x := by
  induction m with
  | nil =>
    simp only [setEntry, lookup]
    by_cases h : x = s
    · rw [if_pos h, if_pos h.symm]
    · rw [if_neg h, if_neg (fun hsx => h hsx.symm)]
  | cons p ps ih =>
    simp only [setEntry]
    by_cases hp : p.1 = s
    · rw [if_pos hp]
      simp only [lookup]
      by_cases h : x = s
      · rw [if_pos h.symm, if_pos h]
      · rw [if_neg (fun hsx => h hsx.symm), if_neg h,
          if_neg (fun hpx => h (hp.symm.trans hpx).symm)]
    · rw [if_neg hp]
      simp only [lookup, ih]
      by_cases hpx : p.1 = x
      · rw [if_pos hpx, if_neg (fun hxs => hp (hpx.trans hxs)), if_pos hpx]
      · rw [if_neg hpx]
        by_cases h : x = s
        · rw [if_pos h, if_pos h]
        · rw [if_neg h, if_neg h, if_neg hpx]

theorem lookup_eraseEntry (m : CofaceMap) (s : Simplex) (x : Simplex) :
    lookup (eraseEntry m s) x = if x = s then none else lookup m x := by
  induction m with
  | nil =>
    simp only [eraseEntry, lookup]
    by_cases h : x = s
    · rw [if_pos h]
    · rw [if_neg h]
  | cons p ps ih =>
    simp only [eraseEntry]
    by_cases hp : p.1 = s
    · rw [if_pos hp, ih]
      by_cases h : x = s
      · rw [if_pos h, if_pos h]
      · rw [if_neg h, if_neg h]
        simp only [lookup]
        rw [if_neg (fun hpx => h (hp.symm.trans hpx).symm)]
    · rw [if_neg hp]
      simp only [lookup, ih]
      by_cases hpx : p.1 = x
      · rw [if_pos hpx, if_neg (fun hxs => hp (hpx.trans hxs)), if_pos hpx]
      · rw [if_neg hpx]
        by_cases h : x = s
        · rw [if_pos h, if_pos h]
        · rw [if_neg h, if_neg h, if_neg hpx]

/-! ### Building the coface map -/

theorem lookup_insertFold (s : Simplex) :
    ∀ (fs : List Simplex) (m : CofaceMap) (x : Simplex),
      lookup
        (fs.foldl
          (fun m2 f => setEntry m2 f (insert s ((lookup m2 f).getD ∅))) m) x =
      if x ∈ fs then some (insert s ((lookup m x).getD ∅)) else lookup m x := by
  intro fs
  induction fs with
  | nil => intro m x; simp
  | cons f fs2 ih =>
    intro m x
    rw [List.foldl_cons, ih]
    by_cases hx : x ∈ fs2
    · simp only [hx, if_true, List.mem_cons, or_true]
      rw [lookup_setEntry]
      by_cases hxf : x = f
      · subst hxf; simp
      · simp [hxf]
    · rw [lookup_setEntry]
      by_cases hxf : x = f
      · subst hxf; simp [hx]
      · simp [hxf, hx]

theorem lookup_buildStep (m : CofaceMap) (s : Simplex) (x : Simplex) :
    lookup (buildStep m s) x =
      if x ∈ boundary s then
        some (insert s
          ((if x = s then some ((lookup m s).getD ∅) else lookup m x).getD ∅))
      else if x = s then some ((lookup m s).getD ∅) else lookup m x := by
  unfold buildStep
  rw [lookup_insertFold]
  rcases hms : lookup m s with _ | A
  · simp only [hms, Option.isSome_none, Bool.false_eq_true, if_false]
    rw [lookup_setEntry]
    by_cases hxs : x = s <;> simp [hxs, hms]
  · simp only [hms, Option.isSome_some, if_true]
    by_cases hxs : x = s <;> simp [hxs, hms]

theorem cofacesOf_append_single (P : List Simplex) (u x : Simplex) :
    cofacesOf (P ++ [u]) x =
      if x ∈ boundary u then insert u (cofacesOf P x)
      else cofacesOf P x := by
  by_cases hxu : x ∈ boundary u
  · simp only [hxu, if_true]
    ext w
    simp only [mem_cofacesOf, List.mem_append, List.mem_singleton,
      Finset.mem_insert]
    constructor
    · rintro ⟨hw | rfl, hxw⟩
      · exact Or.inr ⟨hw, hxw⟩
      · exact Or.inl rfl
    · rintro (rfl | ⟨hwP, hxw⟩)
      · exact ⟨Or.inr rfl, hxu⟩
      · exact ⟨Or.inl hwP, hxw⟩
  · simp only [hxu, if_false]
    ext w
    simp only [mem_cofacesOf, List.mem_append, List.mem_singleton]
    constructor
    · rintro ⟨hw | rfl, hxw⟩
      · exact ⟨hw, hxw⟩
      · exact absurd hxw hxu
    · rintro ⟨hwP, hxw⟩
      exact ⟨Or.inl hwP, hxw⟩

theorem cofacesOf_empty_of_not_covered {P : List Simplex} {x : Simplex}
    (h : ¬ (x ∈ P ∨ ∃ u ∈ P, x ∈ boundary u)) : cofacesOf P x = ∅ := by
  push_neg at h
  exact cofacesOf_eq_empty_iff.mpr h.2

theorem buildFold_lookup :
    ∀ (K2 : List Simplex) (m : CofaceMap) (P : List Simplex),
      (∀ x, lookup m x =
        if x ∈ P ∨ ∃ u ∈ P, x ∈ boundary u
        then some (cofacesOf P x) else none) →
      ∀ x, lookup (K2.foldl buildStep m) x =
        if x ∈ P ++ K2 ∨ ∃ u ∈ P ++ K2, x ∈ boundary u
        then some (cofacesOf (P ++ K2) x) else none := by
  intro K2
  induction K2 with
  | nil => intro m P hm x; simpa using hm x
  | cons u K3 ih =>
    intro m P hm x
    rw [List.foldl_cons]
    have step : ∀ y, lookup (buildStep m u) y =
        if y ∈ P ++ [u] ∨ ∃ w ∈ P ++ [u], y ∈ boundary w
        then some (cofacesOf (P ++ [u]) y) else none := by
      intro y
      rw [lookup_buildStep]
      -- the value stored before inserting the new coface is always the old
      -- coface set of `y`
      have base : (if y = u then some ((lookup m u).getD ∅)
          else lookup m y).getD ∅ = cofacesOf P y := by
        by_cases hyu : y = u
        · subst hyu
          rw [hm y]
          by_cases hc : y ∈ P ∨ ∃ w ∈ P, y ∈ boundary w
          · simp [hc]
          · simp [hc, cofacesOf_empty_of_not_covered hc]
        · simp only [hyu, if_false]
          rw [hm y]
          by_cases hc : y ∈ P ∨ ∃ w ∈ P, y ∈ boundary w
          · simp [hc]
          · simp [hc, cofacesOf_empty_of_not_covered hc]
      have hcondNew : (y ∈ P ++ [u] ∨ ∃ w ∈ P ++ [u], y ∈ boundary w) ↔
          ((y ∈ P ∨ ∃ w ∈ P, y ∈ boundary w) ∨ y = u ∨ y ∈ boundary u) := by
        simp only [List.mem_append, List.mem_singleton]
        constructor
        · rintro (⟨hy | rfl⟩ | ⟨w, hw | rfl, hyw⟩)
          · exact Or.inl (Or.inl hy)
          · exact Or.inr (Or.inl rfl)
          · exact Or.inl (Or.inr ⟨w, hw, hyw⟩)
          · exact Or.inr (Or.inr hyw)
        · rintro ((hy | ⟨w, hw, hyw⟩) | rfl | hyb)
          · exact Or.inl (Or.inl hy)
          · exact Or.inr ⟨w, Or.inl hw, hyw⟩
          · exact Or.inl (Or.inr rfl)
          · exact Or.inr ⟨u, Or.inr rfl, hyb⟩
      by_cases hyb : y ∈ boundary u
      · simp only [hyb, if_true, base]
        rw [if_pos (hcondNew.mpr (Or.inr (Or.inr hyb))),
          cofacesOf_append_single, if_pos hyb]
      · simp only [hyb, if_false]
        by_cases hyu : y = u
        · subst hyu
          rw [if_pos, if_pos (hcondNew.mpr (Or.inr (Or.inl rfl))),
            cofacesOf_append_single, if_neg hyb]
          · congr 1
            rw [hm y]
            by_cases hc : y ∈ P ∨ ∃ w ∈ P, y ∈ boundary w
            · simp [hc]
            · simp [hc, cofacesOf_empty_of_not_covered hc]
          · rfl
        · rw [if_neg hyu, hm y]
          by_cases hc : y ∈ P ∨ ∃ w ∈ P, y ∈ boundary w
          · rw [if_pos hc, if_pos (hcondNew.mpr (Or.inl hc)),
              cofacesOf_append_single, if_neg hyb]
          · have hNot : ¬ (y ∈ P ++ [u] ∨ ∃ w ∈ P ++ [u], y ∈ boundary w) := by
              intro h
              rcases hcondNew.mp h with h1 | h2 | h3
              · exact hc h1
              · exact hyu h2
              · exact hyb h3
            rw [if_neg hc, if_neg hNot]
    have hPl : P ++ [u] ++ K3 = P ++ u :: K3 := by simp
    have H := ih (buildStep m u) (P ++ [u]) step x
    rw [hPl] at H
    exact H

theorem buildCofaceMap_lookup (K : SimplicialComplex) (x : Simplex) :
    lookup (buildCofaceMap K) x =
      if x ∈ K ∨ ∃ u ∈ K, x ∈ boundary u
      then some (cofacesOf K x) else none := by
  have base : ∀ y, lookup ([] : CofaceMap) y =
      if y ∈ ([] : List Simplex) ∨ ∃ u ∈ ([] : List Simplex), y ∈ boundary u
      then some (cofacesOf [] y) else none := by
    intro y; simp [lookup]
  have := buildFold_lookup K [] [] base x
  simpa using this

theorem buildCofaceMap_exact {K : SimplicialComplex} (hFC : FaceClosed K) :
    CofacesExact (buildCofaceMap K) K := by
  intro x
  constructor
  · intro hx
    rw [buildCofaceMap_lookup, if_pos (Or.inl hx)]
  · intro hx
    rw [buildCofaceMap_lookup, if_neg]
    rintro (h | ⟨u, hu, hxu⟩)
    · exact hx h
    · exact hx (hFC u hu x hxu)

/-! ### The collapse mutation of the coface map -/

theorem erase2_idem (A : Finset Simplex) (s t : Simplex) :
    (((A.erase s).erase t).erase s).erase t = (A.erase s).erase t := by
  rw [Finset.erase_right_comm (a := t), Finset.erase_idem,
    Finset.erase_idem]

theorem lookup_eraseCofaceEntry (m : CofaceMap) (f s t x : Simplex) :
    lookup (eraseCofaceEntry m f s t) x =
      if x = f then (lookup m f).map (fun A => (A.erase s).erase t)
      else lookup m x := by
  unfold eraseCofaceEntry
  rcases hmf : lookup m f with _ | A
  · by_cases hxf : x = f
    · subst hxf; simp [hmf]
    · simp [hxf]
  · rw [lookup_setEntry]
    by_cases hxf : x = f <;> simp [hxf, hmf]

theorem lookup_eraseFold (s t : Simplex) :
    ∀ (fs : List Simplex) (m : CofaceMap) (x : Simplex),
      lookup (fs.foldl (fun m2 f => eraseCofaceEntry m2 f s t) m) x =
      if x ∈ fs then (lookup m x).map (fun A => (A.erase s).erase t)
      else lookup m x := by
  intro fs
  induction fs with
  | nil => intro m x; simp
  | cons f fs2 ih =>
    intro m x
    rw [List.foldl_cons, ih]
    by_cases hx : x ∈ fs2
    · simp only [hx, if_true, List.mem_cons, or_true]
      rw [lookup_eraseCofaceEntry]
      by_cases hxf : x = f
      · subst hxf
        rcases hmx : lookup m x with _ | A
        · simp
        · simp [erase2_idem]
      · simp [hxf]
    · rw [lookup_eraseCofaceEntry]
      by_cases hxf : x = f
      · subst hxf; simp [hx]
      · simp [hxf, hx]

theorem lookup_collapseCofaces (m : CofaceMap) (s t x : Simplex) :
    lookup (collapseCofaces m s t) x =
      if x = s ∨ x = t then none
      else if x ∈ boundary s ∨ x ∈ boundary t then
        (lookup m x).map (fun A => (A.erase s).erase t)
      else lookup m x := by
  unfold collapseCofaces
  rw [lookup_eraseEntry, lookup_eraseEntry, lookup_eraseFold, lookup_eraseFold]
  by_cases hxt : x = t
  · simp [hxt]
  · by_cases hxs : x = s
    · simp [hxs, hxt]
    · simp only [hxt, hxs, if_false, false_or, or_false]
      by_cases hbt : x ∈ boundary t
      · by_cases hbs : x ∈ boundary s
        · simp only [hbt, hbs, if_true, true_or, or_true]
          rcases hmx : lookup m x with _ | A
          · simp
          · simp [erase2_idem]
        · simp [hbt, hbs]
      · by_cases hbs : x ∈ boundary s <;> simp [hbt, hbs]

/-- The collapse mutation keeps the coface map exact for the shrunken
complex. -/
theorem collapseCofaces_exact {L : SimplicialComplex} {m : CofaceMap}
    {s t : Simplex} (hWF : WF L) (hex : CofacesExact m L)
    (hs : s ∈ L) (ht : t ∈ L) (htb : t ∈ boundary s)
    (hcs : cofacesOf L s = ∅) (hct : cofacesOf L t = {s}) :
    CofacesExact (collapseCofaces m s t) ((L.erase s).erase t) := by
  intro x
  rw [lookup_collapseCofaces]
  by_cases hxst : x = s ∨ x = t
  · simp only [hxst, if_true]
    constructor
    · intro hx
      rcases (mem_erase_pair hWF.1).mp hx with ⟨_, hxs, hxt⟩
      rcases hxst with rfl | rfl
      · exact absurd rfl hxs
      · exact absurd rfl hxt
    · intro _; trivial
  · push_neg at hxst
    simp only [hxst.1, hxst.2, or_self, if_false]
    by_cases hxL : x ∈ L
    · have hxL2 : x ∈ (L.erase s).erase t :=
        (mem_erase_pair hWF.1).mpr ⟨hxL, hxst.1, hxst.2⟩
      have hval : lookup m x = some (cofacesOf L x) := (hex x).1 hxL
      constructor
      · intro _
        rw [cofacesOf_erase_pair hWF.1]
        by_cases hb : x ∈ boundary s ∨ x ∈ boundary t
        · simp [hb, hval]
        · simp only [hb, if_false, hval]
          push_neg at hb
          have h1 : s ∉ cofacesOf L x := by
            intro hmem
            exact hb.1 (mem_cofacesOf.mp hmem).2
          have h2 : t ∉ cofacesOf L x := by
            intro hmem
            exact hb.2 (mem_cofacesOf.mp hmem).2
          rw [Finset.erase_eq_of_not_mem h1, Finset.erase_eq_of_not_mem h2]
      · intro hx
        exact absurd hxL2 hx
    · have hxL2 : x ∉ (L.erase s).erase t := by
        intro hmem
        exact hxL ((mem_erase_pair hWF.1).mp hmem).1
      have hval : lookup m x = none := (hex x).2 hxL
      constructor
      · intro hx; exact absurd hx hxL2
      · intro _
        by_cases hb : x ∈ boundary s ∨ x ∈ boundary t <;> simp [hb, hval]

/-! ### Free-face search -/

theorem card_one_mem_iff {A : Finset Simplex} {s : Simplex} :
    (A.card = 1 ∧ s ∈ A) ↔ A = {s} := by
  constructor
  · rintro ⟨hc, hm⟩
    obtain ⟨a, ha⟩ := Finset.card_eq_one.mp hc
    subst ha
    rw [Finset.mem_singleton] at hm
    rw [hm]
  · rintro rfl
    simp

theorem getFreeFaceAux_eq_find (m : CofaceMap) (s : Simplex)
    (fs : List Simplex) :
    getFreeFaceAux m s fs =
      (fs.find? (fun f => decide ((lookup m f).getD ∅ = {s}))).getD [] := by
  induction fs with
  | nil => rfl
  | cons f fs2 ih =>
    simp only [getFreeFaceAux]
    by_cases h : ((lookup m f).getD ∅).card = 1 ∧ s ∈ (lookup m f).getD ∅
    · have hfind := List.find?_cons_of_pos
        (p := fun g => decide ((lookup m g).getD ∅ = {s})) (a := f) fs2
        (decide_eq_true (card_one_mem_iff.mp h))
      rw [if_pos h, hfind, Option.getD_some]
    · have hfind := List.find?_cons_of_neg
        (p := fun g => decide ((lookup m g).getD ∅ = {s})) (a := f) fs2
        (fun hd => h (card_one_mem_iff.mpr (of_decide_eq_true hd)))
      rw [if_neg h, hfind, ih]

theorem getFreeFaceAux_mem {m : CofaceMap} {s : Simplex} {fs : List Simplex}
    (h : getFreeFaceAux m s fs ≠ []) :
    getFreeFaceAux m s fs ∈ fs ∧
      (lookup m (getFreeFaceAux m s fs)).getD ∅ = {s} := by
  induction fs with
  | nil => simp [getFreeFaceAux] at h
  | cons f fs2 ih =>
    simp only [getFreeFaceAux] at h ⊢
    by_cases hc : ((lookup m f).getD ∅).card = 1 ∧ s ∈ (lookup m f).getD ∅
    · rw [if_pos hc] at h ⊢
      exact ⟨List.mem_cons_self f fs2, card_one_mem_iff.mp hc⟩
    · rw [if_neg hc] at h ⊢
      obtain ⟨h1, h2⟩ := ih h
      exact ⟨List.mem_cons_of_mem f h1, h2⟩

/-- Under an exact coface map, a successful free-face search certifies a
genuine admissible pair of the complex. -/
theorem getFreeFace_spec_exact {L : SimplicialComplex} {m : CofaceMap}
    {x : Simplex} (hex : CofacesExact m L) (h : getFreeFace m x ≠ []) :
    x ∈ L ∧ cofacesOf L x = ∅ ∧ getFreeFace m x ∈ boundary x ∧
      getFreeFace m x ∈ L ∧ cofacesOf L (getFreeFace m x) = {x} := by
  unfold getFreeFace at h ⊢
  by_cases hp : isPrincipal m x
  · rw [if_pos hp] at h ⊢
    obtain ⟨hmem, hset⟩ := getFreeFaceAux_mem h
    have hgL : getFreeFaceAux m x (boundary x) ∈ L := by
      by_contra hgL
      rw [(hex _).2 hgL] at hset
      simp only [Option.getD_none] at hset
      exact (Finset.singleton_ne_empty x) hset.symm
    have hcofg : cofacesOf L (getFreeFaceAux m x (boundary x)) = {x} := by
      rw [(hex _).1 hgL] at hset
      simpa using hset
    have hxL : x ∈ L := by
      have hx : x ∈ cofacesOf L (getFreeFaceAux m x (boundary x)) := by
        rw [hcofg]; exact Finset.mem_singleton_self x
      exact (mem_cofacesOf.mp hx).1
    have hcofx : cofacesOf L x = ∅ := by
      unfold isPrincipal at hp
      rw [(hex x).1 hxL] at hp
      simpa using hp
    exact ⟨hxL, hcofx, hmem, hgL, hcofg⟩
  · rw [if_neg hp] at h
    exact absurd rfl h

/-! ### The admissible set -/

theorem mem_insertAdmissible {adm : List (Simplex × Simplex)}
    {s t : Simplex} {p : Simplex × Simplex}
    (hp : p ∈ insertAdmissible adm s t) : p ∈ adm ∨ p = (s, t) := by
  unfold insertAdmissible at hp
  split_ifs at hp with h
  · exact Or.inl hp
  · rcases List.mem_append.mp hp with h1 | h2
    · exact Or.inl h1
    · right; simpa using h2

theorem keys_insertAdmissible_nodup {adm : List (Simplex × Simplex)}
    {s t : Simplex} (h : (adm.map Prod.fst).Nodup) :
    ((insertAdmissible adm s t).map Prod.fst).Nodup := by
  unfold insertAdmissible
  split_ifs with hk
  · exact h
  · rw [List.map_append]
    rw [List.nodup_append]
    refine ⟨h, List.nodup_singleton s, ?_⟩
    intro a ha hb
    simp only [List.map_cons, List.map_nil, List.mem_singleton] at hb
    subst hb
    exact hk ha

theorem mem_eraseKey {adm : List (Simplex × Simplex)} {s : Simplex}
    {p : Simplex × Simplex} :
    p ∈ eraseKey adm s ↔ p ∈ adm ∧ p.1 ≠ s := by
  induction adm with
  | nil => simp [eraseKey]
  | cons q qs ih =>
    simp only [eraseKey]
    by_cases hq : q.1 = s
    · rw [if_pos hq, ih]
      constructor
      · rintro ⟨h1, h2⟩
        exact ⟨List.mem_cons_of_mem q h1, h2⟩
      · rintro ⟨h1, h2⟩
        rcases List.mem_cons.mp h1 with rfl | h3
        · exact absurd hq h2
        · exact ⟨h3, h2⟩
    · rw [if_neg hq]
      simp only [List.mem_cons, ih]
      constructor
      · rintro (rfl | ⟨h1, h2⟩)
        · exact ⟨Or.inl rfl, hq⟩
        · exact ⟨Or.inr h1, h2⟩
      · rintro ⟨rfl | h1, h2⟩
        · exact Or.inl rfl
        · exact Or.inr ⟨h1, h2⟩

theorem keys_eraseKey_sublist (adm : List (Simplex × Simplex)) (s : Simplex) :
    ((eraseKey adm s).map Prod.fst).Sublist (adm.map Prod.fst) := by
  induction adm with
  | nil => simp [eraseKey]
  | cons q qs ih =>
    simp only [eraseKey]
    by_cases hq : q.1 = s
    · rw [if_pos hq]
      exact ih.cons q.1
    · rw [if_neg hq]
      simpa using ih.cons₂ q.1

/-- AdmOK is preserved by one `considerFace` probe over an exact map (a
probe either inserts nothing or a certified admissible pair). -/
theorem admOK_considerFace {L : SimplicialComplex} {m : CofaceMap}
    {adm : List (Simplex × Simplex)} (hex : CofacesExact m L)
    (hadm : AdmOK L adm) (f : Simplex) : AdmOK L (considerFace m adm f) := by
  unfold considerFace
  by_cases hg : getFreeFace m f = []
  · simp only [hg, if_true]
    exact hadm
  · simp only [hg, if_false]
    obtain ⟨hfL, hcf, hgb, hgL, hcg⟩ := getFreeFace_spec_exact hex hg
    constructor
    · exact keys_insertAdmissible_nodup hadm.1
    · intro p hp
      rcases mem_insertAdmissible hp with h1 | rfl
      · exact hadm.2 p h1
      · exact ⟨hfL, hgb, hcf, hcg⟩

theorem admOK_considerFold {L : SimplicialComplex} {m : CofaceMap}
    (hex : CofacesExact m L) :
    ∀ (fs : List Simplex) (adm : List (Simplex × Simplex)), AdmOK L adm →
      AdmOK L (fs.foldl (considerFace m) adm) := by
  intro fs
  induction fs with
  | nil => intro adm h; exact h
  | cons f fs2 ih =>
    intro adm h
    exact ih _ (admOK_considerFace hex h f)

theorem admOK_skipFold {L : SimplicialComplex} {m : CofaceMap} {t : Simplex}
    (hex : CofacesExact m L) :
    ∀ (fs : List Simplex) (adm : List (Simplex × Simplex)), AdmOK L adm →
      AdmOK L (fs.foldl
        (fun a f => if f = t then a else considerFace m a f) adm) := by
  intro fs
  induction fs with
  | nil => intro adm h; exact h
  | cons f fs2 ih =>
    intro adm h
    by_cases hf : f = t
    · simpa [hf] using ih _ h
    · simpa [hf] using ih _ (admOK_considerFace hex h f)

theorem admOK_getPrincipalFaces {L : SimplicialComplex} {m : CofaceMap}
    (hex : CofacesExact m L) : AdmOK L (getPrincipalFaces m L) := by
  unfold getPrincipalFaces
  exact admOK_considerFold hex L [] ⟨List.nodup_nil, by simp⟩

theorem admOK_reprobePrincipal {L : SimplicialComplex} {m : CofaceMap}
    {adm : List (Simplex × Simplex)} (hex : CofacesExact m L)
    (s t : Simplex) (h : AdmOK L adm) :
    AdmOK L (reprobePrincipal m s t adm) :=
  admOK_skipFold hex (boundary s) adm h

theorem admOK_reprobeFree {L : SimplicialComplex} {m : CofaceMap}
    {adm : List (Simplex × Simplex)} (hex : CofacesExact m L)
    (t : Simplex) (h : AdmOK L adm) :
    AdmOK L (reprobeFree m t adm) :=
  admOK_considerFold hex (boundary t) adm h

/-- Surviving admissible entries are still admissible after a collapse:
the removed pair cannot occur in them. -/
theorem admOK_after_collapse {L : SimplicialComplex} {s t : Simplex}
    {rest : List (Simplex × Simplex)} (hWF : WF L)
    (hadm : AdmOK L ((s, t) :: rest)) :
    AdmOK ((L.erase s).erase t) (eraseKey ((s, t) :: rest) s) := by
  obtain ⟨hnd, hall⟩ := hadm
  obtain ⟨hs, htb, hcs, hct⟩ := hall (s, t) (List.mem_cons_self _ _)
  constructor
  · exact (keys_eraseKey_sublist _ _).nodup hnd
  · intro p hp
    rcases mem_eraseKey.mp hp with ⟨hpmem, hps⟩
    obtain ⟨hp1L, hp2b, hpc1, hpc2⟩ := hall p hpmem
    have hpt : p.1 ≠ t := by
      intro hEq
      rw [hEq, hct] at hpc1
      exact (Finset.singleton_ne_empty s) hpc1
    have hp2s : p.2 ≠ s := by
      intro hEq
      rw [hEq, hcs] at hpc2
      exact (Finset.singleton_ne_empty p.1) hpc2.symm
    have hp2t : p.2 ≠ t := by
      intro hEq
      rw [hEq, hct] at hpc2
      exact hps (Finset.singleton_injective hpc2.symm)
    refine ⟨(mem_erase_pair hWF.1).mpr ⟨hp1L, hps, hpt⟩, hp2b, ?_, ?_⟩
    · rw [cofacesOf_erase_pair hWF.1, hpc1]
      simp
    · rw [cofacesOf_erase_pair hWF.1, hpc2]
      have h1 : ({p.1} : Finset Simplex).erase s = {p.1} :=
        Finset.erase_eq_of_not_mem
          (by rw [Finset.mem_singleton]; exact fun h => hps h.symm)
      have h2 : ({p.1} : Finset Simplex).erase t = {p.1} :=
        Finset.erase_eq_of_not_mem
          (by rw [Finset.mem_singleton]; exact fun h => hpt h.symm)
      rw [h1, h2]

/-! ### Preservation of the loop invariant -/

theorem collapseBody_fixpoint {st : SpineState} (h : st.2.2 = []) :
    collapseBody st = st := by
  obtain ⟨L, m, adm⟩ := st
  cases adm with
  | nil => rfl
  | cons p rest => exact absurd h (by simp)

theorem inv_collapseBody {st : SpineState} (h : Inv st) :
    Inv (collapseBody st) := by
  obtain ⟨L, m, adm⟩ := st
  cases adm with
  | nil => exact h
  | cons p rest =>
    obtain ⟨s, t⟩ := p
    obtain ⟨hWF, hex, hadm⟩ := h
    obtain ⟨hs, htb, hcs, hct⟩ := hadm.2 (s, t) (List.mem_cons_self _ _)
    have ht : t ∈ L := hWF.2.2 s hs t htb
    have hWF2 : WF ((L.erase s).erase t) :=
      wf_erase_pair hWF hs ht htb hcs hct
    have hex2 : CofacesExact (collapseCofaces m s t) ((L.erase s).erase t) :=
      collapseCofaces_exact hWF hex hs ht htb hcs hct
    have hadm1 := admOK_after_collapse hWF hadm
    have hadm2 := admOK_reprobeFree hex2 t
      (admOK_reprobePrincipal hex2 s t hadm1)
    simp only [collapseBody]
    refine ⟨hWF2, hex2, ?_⟩
    by_cases hempty :
        reprobeFree (collapseCofaces m s t) t
          (reprobePrincipal (collapseCofaces m s t) s t
            (eraseKey ((s, t) :: rest) s)) = []
    · simp only [hempty, if_true]
      exact admOK_getPrincipalFaces hex2
    · simp only [hempty, if_false]
      exact hadm2

theorem collapseBody_length {st : SpineState} (h : Inv st) :
    (st.2.2 = [] ∧ collapseBody st = st) ∨
      (collapseBody st).1.length + 2 = st.1.length := by
  obtain ⟨L, m, adm⟩ := st
  cases adm with
  | nil => exact Or.inl ⟨rfl, rfl⟩
  | cons p rest =>
    obtain ⟨s, t⟩ := p
    obtain ⟨hWF, hex, hadm⟩ := h
    obtain ⟨hs, htb, hcs, hct⟩ := hadm.2 (s, t) (List.mem_cons_self _ _)
    have ht : t ∈ L := hWF.2.2 s hs t htb
    right
    simpa [collapseBody] using
      length_erase_pair hs ht (mem_boundary_ne htb)

/-! ### Map-independence of the admissible-pair rebuild -/

theorem getFreeFaceAux_congr {m m2 : CofaceMap} {s : Simplex} :
    ∀ fs : List Simplex, (∀ f ∈ fs, lookup m f = lookup m2 f) →
      getFreeFaceAux m s fs = getFreeFaceAux m2 s fs := by
  intro fs
  induction fs with
  | nil => intro _; rfl
  | cons f fs2 ih =>
    intro hpt
    simp only [getFreeFaceAux, hpt f (List.mem_cons_self f fs2)]
    rw [ih (fun g hg => hpt g (List.mem_cons_of_mem f hg))]

theorem getFreeFace_congr {L : SimplicialComplex} {m m2 : CofaceMap}
    {x : Simplex} (hex : CofacesExact m L) (hex2 : CofacesExact m2 L)
    (hFC : FaceClosed L) (hx : x ∈ L) :
    getFreeFace m x = getFreeFace m2 x := by
  have hpt : ∀ y, y ∈ L → lookup m y = lookup m2 y := fun y hy => by
    rw [(hex y).1 hy, (hex2 y).1 hy]
  unfold getFreeFace isPrincipal
  have hx2 := hpt x hx
  by_cases hp : (lookup m x).getD ∅ = ∅
  · rw [if_pos hp, if_pos (by rw [← hx2]; exact hp)]
    exact getFreeFaceAux_congr (boundary x) (fun f hf => hpt f (hFC x hx f hf))
  · rw [if_neg hp, if_neg (by rw [← hx2]; exact hp)]

theorem considerFold_congr {L : SimplicialComplex} {m m2 : CofaceMap}
    (hex : CofacesExact m L) (hex2 : CofacesExact m2 L) (hFC : FaceClosed L) :
    ∀ fs : List Simplex, (∀ f ∈ fs, f ∈ L) →
      ∀ adm, fs.foldl (considerFace m) adm = fs.foldl (considerFace m2) adm := by
  intro fs
  induction fs with
  | nil => intro _ adm; rfl
  | cons f fs2 ih =>
    intro hmem adm
    have hface : considerFace m adm f = considerFace m2 adm f := by
      unfold considerFace
      rw [getFreeFace_congr hex hex2 hFC (hmem f (List.mem_cons_self f fs2))]
    simp only [List.foldl_cons, hface]
    exact ih (fun g hg => hmem g (List.mem_cons_of_mem f hg)) _

theorem getPrincipalFaces_congr {L : SimplicialComplex} {m m2 : CofaceMap}
    (hex : CofacesExact m L) (hex2 : CofacesExact m2 L) (hFC : FaceClosed L) :
    getPrincipalFaces m L = getPrincipalFaces m2 L :=
  considerFold_congr hex hex2 hFC L (fun _ h => h) []

/-- A complex on which a from-scratch rebuild finds no admissible pair. -/
def NoAdmissible (L : SimplicialComplex) : Prop :=
  getPrincipalFaces (buildCofaceMap L) L = []

theorem rebuildEmpty_propagate {st : SpineState} (h : Inv st)
    (hP : st.2.2 = [] → NoAdmissible st.1) :
    (collapseBody st).2.2 = [] → NoAdmissible (collapseBody st).1 := by
  obtain ⟨L, m, adm⟩ := st
  cases adm with
  | nil => exact hP
  | cons p rest =>
    obtain ⟨s, t⟩ := p
    obtain ⟨hWF, hex, hadm⟩ := h
    obtain ⟨hs, htb, hcs, hct⟩ := hadm.2 (s, t) (List.mem_cons_self _ _)
    have ht : t ∈ L := hWF.2.2 s hs t htb
    have hWF2 : WF ((L.erase s).erase t) :=
      wf_erase_pair hWF hs ht htb hcs hct
    have hex2 : CofacesExact (collapseCofaces m s t) ((L.erase s).erase t) :=
      collapseCofaces_exact hWF hex hs ht htb hcs hct
    simp only [collapseBody]
    by_cases hempty :
        reprobeFree (collapseCofaces m s t) t
          (reprobePrincipal (collapseCofaces m s t) s t
            (eraseKey ((s, t) :: rest) s)) = []
    · simp only [hempty, if_true]
      intro hre
      unfold NoAdmissible
      rw [getPrincipalFaces_congr
        (buildCofaceMap_exact hWF2.2.2) hex2 hWF2.2.2]
      exact hre
    · simp only [hempty, if_false]
      intro hre
      exact hre.elim

/-! ### Iterating the loop -/

theorem iterate_inv {st : SpineState} (h : Inv st) (n : ℕ) :
    Inv (collapseBody^[n] st) := by
  induction n with
  | zero => exact h
  | succ n ih =>
    rw [Function.iterate_succ_apply']
    exact inv_collapseBody ih

theorem iterate_P {st : SpineState} (h : Inv st)
    (hP : st.2.2 = [] → NoAdmissible st.1) (n : ℕ) :
    (collapseBody^[n] st).2.2 = [] → NoAdmissible (collapseBody^[n] st).1 := by
  induction n with
  | zero => exact hP
  | succ n ih =>
    rw [Function.iterate_succ_apply']
    exact rebuildEmpty_propagate (iterate_inv h n) ih

theorem iterate_adm_empty :
    ∀ (n : ℕ) (st : SpineState), Inv st → st.1.length ≤ n →
      (collapseBody^[n] st).2.2 = [] := by
  intro n
  induction n with
  | zero =>
    intro st h hlen
    obtain ⟨L, m, adm⟩ := st
    have hL : L = [] := List.length_eq_zero.mp (Nat.le_zero.mp hlen)
    subst hL
    cases adm with
    | nil => rfl
    | cons p rest =>
      exact absurd (h.2.2.2 p (List.mem_cons_self _ _)).1 (by simp)
  | succ n ih =>
    intro st h hlen
    rcases hadm : st.2.2 with _ | ⟨p, rest⟩
    · rw [Function.iterate_fixed (collapseBody_fixpoint hadm) (n + 1)]
      exact hadm
    · rw [Function.iterate_succ_apply]
      rcases collapseBody_length h with ⟨hfix, _⟩ | hlen2
      · rw [hadm] at hfix; exact absurd hfix (by simp)
      · exact ih (collapseBody st) (inv_collapseBody h) (by omega)

theorem iterate_parity :
    ∀ (n : ℕ) (st : SpineState), Inv st →
      ∃ k, st.1.length = (collapseBody^[n] st).1.length + 2 * k := by
  intro n
  induction n with
  | zero => intro st _; exact ⟨0, by simp⟩
  | succ n ih =>
    intro st h
    rcases collapseBody_length h with ⟨_, hfix⟩ | hlen2
    · obtain ⟨k, hk⟩ := ih st h
      refine ⟨k, ?_⟩
      rw [Function.iterate_succ_apply, hfix]
      exact hk
    · obtain ⟨k, hk⟩ := ih (collapseBody st) (inv_collapseBody h)
      refine ⟨k + 1, ?_⟩
      rw [Function.iterate_succ_apply]
      omega

/-! ### Consequences for `spine` -/

theorem initState_inv {K : SimplicialComplex} (hWF : WF K) :
    Inv (initState K) :=
  ⟨hWF, buildCofaceMap_exact hWF.2.2,
    admOK_getPrincipalFaces (buildCofaceMap_exact hWF.2.2)⟩

theorem spineState_inv {K : SimplicialComplex} (hWF : WF K) (n : ℕ) :
    Inv (spineState K n) :=
  iterate_inv (initState_inv hWF) n

theorem spine_wf {K : SimplicialComplex} (hWF : WF K) : WF (spine K) :=
  (spineState_inv hWF K.length).1

theorem spine_adm_empty {K : SimplicialComplex} (hWF : WF K) :
    (spineState K K.length).2.2 = [] :=
  iterate_adm_empty K.length (initState K) (initState_inv hWF) le_rfl

theorem spine_noAdmissible {K : SimplicialComplex} (hWF : WF K) :
    NoAdmissible (spine K) :=
  iterate_P (initState_inv hWF) (fun h => h) K.length (spine_adm_empty hWF)

theorem spine_parity {K : SimplicialComplex} (hWF : WF K) :
    ∃ k, K.length = (spine K).length + 2 * k :=
  iterate_parity K.length (initState K) (initState_inv hWF)

theorem spine_length_le {K : SimplicialComplex} (hWF : WF K) :
    (spine K).length ≤ K.length := by
  obtain ⟨k, hk⟩ := spine_parity hWF
  omega

theorem spine_of_noAdmissible {L : SimplicialComplex} (h : NoAdmissible L) :
    spine L = L := by
  unfold spine spineState initState
  unfold NoAdmissible at h
  rw [h]
  rw [Function.iterate_fixed (collapseBody_fixpoint rfl) L.length]

/-! ### The naive reference reducer -/

theorem dumbFreeFaceAux_mem {L : SimplicialComplex} {s : Simplex} :
    ∀ {fs : List Simplex}, dumb.freeFaceAux L s fs ≠ [] →
      dumb.freeFaceAux L s fs ∈ fs ∧
        ¬ dumb.isFaceOfOther L s (dumb.freeFaceAux L s fs) := by
  intro fs
  induction fs with
  | nil => intro h; exact absurd rfl h
  | cons f fs2 ih =>
    intro h
    simp only [dumb.freeFaceAux] at h ⊢
    by_cases hc : dumb.isFaceOfOther L s f
    · rw [if_pos hc] at h ⊢
      obtain ⟨h1, h2⟩ := ih h
      exact ⟨List.mem_cons_of_mem f h1, h2⟩
    · rw [if_neg hc] at h ⊢
      exact ⟨List.mem_cons_self f fs2, hc⟩

theorem mem_eraseFoldInner :
    ∀ (gs : List Simplex) (adm : List (Simplex × Simplex))
      (p : Simplex × Simplex),
      p ∈ gs.foldl eraseKey adm ↔ p ∈ adm ∧ p.1 ∉ gs := by
  intro gs
  induction gs with
  | nil => intro adm p; simp
  | cons g gs2 ih =>
    intro adm p
    rw [List.foldl_cons, ih, mem_eraseKey]
    simp only [List.mem_cons]
    constructor
    · rintro ⟨⟨h1, h2⟩, h3⟩
      exact ⟨h1, by rintro (h | h); exacts [h2 h, h3 h]⟩
    · rintro ⟨h1, h2⟩
      exact ⟨⟨h1, fun h => h2 (Or.inl h)⟩, fun h => h2 (Or.inr h)⟩

theorem mem_eraseFoldOuter :
    ∀ (us : List Simplex) (adm : List (Simplex × Simplex))
      (p : Simplex × Simplex),
      p ∈ us.foldl (fun a u => (boundary u).foldl eraseKey a) adm ↔
        p ∈ adm ∧ ∀ u ∈ us, p.1 ∉ boundary u := by
  intro us
  induction us with
  | nil => intro adm p; simp
  | cons u us2 ih =>
    intro adm p
    rw [List.foldl_cons, ih, mem_eraseFoldInner]
    constructor
    · rintro ⟨⟨h1, h2⟩, h3⟩
      refine ⟨h1, ?_⟩
      intro w hw
      rcases List.mem_cons.mp hw with rfl | hw2
      · exact h2
      · exact h3 w hw2
    · rintro ⟨h1, h2⟩
      exact ⟨⟨h1, h2 u (List.mem_cons_self u us2)⟩,
        fun w hw => h2 w (List.mem_cons_of_mem u hw)⟩

theorem mem_considerSimplexFold {L : SimplicialComplex} :
    ∀ (fs : List Simplex) (adm : List (Simplex × Simplex))
      (p : Simplex × Simplex),
      p ∈ fs.foldl (dumb.considerSimplex L) adm →
      p ∈ adm ∨ (p.1 ∈ fs ∧ p.2 = dumb.freeFace L p.1 ∧ p.2 ≠ [] ∧
        ¬ dimension p.1 = 0) := by
  intro fs
  induction fs with
  | nil => intro adm p h; exact Or.inl h
  | cons f fs2 ih =>
    intro adm p h
    rw [List.foldl_cons] at h
    rcases ih _ p h with h0 | ⟨h1, h2, h3, h4⟩
    · simp only [dumb.considerSimplex] at h0
      split_ifs at h0 with hd hf
      · exact Or.inl h0
      · exact Or.inl h0
      · rcases mem_insertAdmissible h0 with h1 | rfl
        · exact Or.inl h1
        · exact Or.inr ⟨List.mem_cons_self f fs2, rfl, hf, hd⟩
    · exact Or.inr ⟨List.mem_cons_of_mem f h1, h2, h3, h4⟩

/-- Every pair produced by `dumb::principalFaces` is a live principal
simplex together with a free face of it. -/
theorem dumb_pair_spec {L : SimplicialComplex}
    {p : Simplex × Simplex} (hp : p ∈ dumb.principalFaces L) :
    p.1 ∈ L ∧ p.2 ∈ boundary p.1 ∧ cofacesOf L p.1 = ∅ ∧
      cofacesOf L p.2 = {p.1} := by
  unfold dumb.principalFaces at hp
  rw [mem_eraseFoldOuter] at hp
  obtain ⟨hp1, hp2⟩ := hp
  rcases mem_considerSimplexFold L [] p hp1 with h0 | ⟨hfs, hff, hne, _⟩
  · simp at h0
  have hcof1 : cofacesOf L p.1 = ∅ := cofacesOf_eq_empty_iff.mpr hp2
  have hne2 : dumb.freeFaceAux L p.1 (boundary p.1) ≠ [] := by
    rw [← dumb.freeFace, ← hff]
    exact hne
  obtain ⟨hmem, hnf⟩ := dumbFreeFaceAux_mem hne2
  rw [← dumb.freeFace, ← hff] at hmem hnf
  refine ⟨hfs, hmem, hcof1, ?_⟩
  ext u
  rw [mem_cofacesOf, Finset.mem_singleton]
  constructor
  · rintro ⟨huL, hub⟩
    by_contra hup
    exact hnf ⟨u, huL, hup, (mem_boundary_length hub).symm,
      mem_boundary_subset hub⟩
  · rintro rfl
    exact ⟨hfs, hmem⟩

theorem dumb_spineAux_parity :
    ∀ (n : ℕ) (L : SimplicialComplex), WF L →
      ∃ k, L.length = (dumb.spineAux n L).length + 2 * k := by
  intro n
  induction n with
  | zero => intro L _; exact ⟨0, by simp [dumb.spineAux]⟩
  | succ n ih =>
    intro L hWF
    rcases hpf : dumb.principalFaces L with _ | ⟨⟨s, t⟩, rest⟩
    · exact ⟨0, by simp [dumb.spineAux, hpf]⟩
    · have hp := dumb_pair_spec (p := (s, t))
        (by rw [hpf]; exact List.mem_cons_self _ _)
      obtain ⟨hs, htb, hcs, hct⟩ := hp
      have ht : t ∈ L := hWF.2.2 s hs t htb
      have hWF2 := wf_erase_pair hWF hs ht htb hcs hct
      obtain ⟨k, hk⟩ := ih ((L.erase s).erase t) hWF2
      have hlen := length_erase_pair hs ht (mem_boundary_ne htb)
      have hstep : dumb.spineAux (n + 1) L =
          dumb.spineAux n ((L.erase s).erase t) := by
        simp [dumb.spineAux, hpf]
      refine ⟨k + 1, ?_⟩
      rw [hstep, ← hlen, hk]
      ring

theorem spine_dumb_parity {K : SimplicialComplex} (hWF : WF K) :
    (spine K).length % 2 = (dumb.spine K).length % 2 := by
  obtain ⟨k1, h1⟩ := spine_parity hWF
  obtain ⟨k2, h2⟩ := dumb_spineAux_parity K.length K hWF
  unfold dumb.spine
  omega

/-! ### Claims -/

/-- C1 (counterexample): the oracle-agreement claim
`size(spine(K)) = size(dumb::spine(K))` fails on the face-closed complex
`Kdiv`: the incremental engine stops at size 10 while the naive reducer
reaches size 8, because the two select different collapse pairs and greedy
collapsing is not confluent. -/
theorem spine_oracle_counterexample :
    WF Kdiv ∧ (spine Kdiv).length = 10 ∧ (dumb.spine Kdiv).length = 8 ∧
      (spine Kdiv).length ≠ (dumb.spine Kdiv).length := by
  refine ⟨by decide, by decide, by decide, by decide⟩

/-- C1 (amended): both engines remove simplices strictly in pairs, so on
every face-closed complex the two final sizes agree modulo 2 (and each is
at most the input size); exact size agreement does not hold in general. -/
theorem spine_oracle_agreement_amended :
    ∀ K : SimplicialComplex, WF K →
      (spine K).length % 2 = (dumb.spine K).length % 2 :=
  fun _ hWF => spine_dumb_parity hWF

/-- Witness for the amended C1 at the full triangle. -/
theorem spine_oracle_agreement_amended_witness :
    (spine triangleComplex).length % 2 =
      (dumb.spine triangleComplex).length % 2 :=
  spine_oracle_agreement_amended triangleComplex (by decide)

/-- C2: for every face-closed complex `K`, the returned complex `spine K`
is itself face-closed and no larger than `K`. -/
theorem spine_faceClosed_and_size :
    ∀ K : SimplicialComplex, WF K →
      FaceClosed (spine K) ∧ (spine K).length ≤ K.length :=
  fun _ hWF => ⟨(spine_wf hWF).2.2, spine_length_le hWF⟩

/-- Witness for C2 at the full triangle. -/
theorem spine_faceClosed_and_size_witness :
    FaceClosed (spine triangleComplex) ∧
      (spine triangleComplex).length ≤ triangleComplex.length :=
  spine_faceClosed_and_size triangleComplex (by decide)

/-- C3: after building the coface map (state 0) and after every collapse
step (state n), the coface map is exact: every live simplex stores exactly
its current immediate cofaces, and removed simplices have no entry. -/
theorem spine_cofaceMap_exact :
    ∀ K : SimplicialComplex, WF K → ∀ n : ℕ,
      CofacesExact (spineState K n).2.1 (spineState K n).1 :=
  fun _ hWF n => (spineState_inv hWF n).2.1

/-- Witness for C3 at the full triangle after one collapse step. -/
theorem spine_cofaceMap_exact_witness :
    CofacesExact (spineState triangleComplex 1).2.1
      (spineState triangleComplex 1).1 :=
  spine_cofaceMap_exact triangleComplex (by decide) 1

/-- C4: the spine operation is idempotent on face-closed complexes; the
returned complex admits no admissible pair, so running the engine again
returns it unchanged. -/
theorem spine_idempotent :
    ∀ K : SimplicialComplex, WF K → spine (spine K) = spine K :=
  fun _ hWF => spine_of_noAdmissible (spine_noAdmissible hWF)

/-- Witness for C4 at the full triangle. -/
theorem spine_idempotent_witness :
    spine (spine triangleComplex) = spine triangleComplex :=
  spine_idempotent triangleComplex (by decide)

/-- C5: `getFreeFace` returns the empty simplex whenever the stored coface
set of `s` is non-empty; otherwise it returns the first boundary face `f`
of `s`, in the fixed boundary-enumeration order, whose stored coface set is
exactly `{s}`, and the empty simplex when no such face exists. -/
theorem getFreeFace_characterization :
    ∀ (m : CofaceMap) (s : Simplex),
      getFreeFace m s =
        if (lookup m s).getD ∅ = ∅ then
          ((boundary s).find?
            (fun f => decide ((lookup m f).getD ∅ = {s}))).getD []
        else [] := by
  intro m s
  unfold getFreeFace isPrincipal
  rw [getFreeFaceAux_eq_find]

/-- C6: the reduction loop terminates: every iteration either is at the
loop exit (empty admissible set, state frozen) or removes exactly two
simplices; consequently the final size differs from the input size by an
even number, and a full rebuild of the admissible set over the returned
complex is empty. -/
theorem spine_termination :
    ∀ K : SimplicialComplex, WF K →
      (∀ n : ℕ,
        ((spineState K n).2.2 = [] ∧ spineState K (n + 1) = spineState K n) ∨
          (spineState K n).1.length = (spineState K (n + 1)).1.length + 2) ∧
      (∃ k, K.length = (spine K).length + 2 * k) ∧
      getPrincipalFaces (buildCofaceMap (spine K)) (spine K) = [] := by
  intro K hWF
  refine ⟨?_, spine_parity hWF, spine_noAdmissible hWF⟩
  intro n
  have hstep : spineState K (n + 1) = collapseBody (spineState K n) := by
    unfold spineState
    rw [Function.iterate_succ_apply']
  rcases collapseBody_length (spineState_inv hWF n) with ⟨hadm, hfix⟩ | hlen
  · exact Or.inl ⟨hadm, by rw [hstep, hfix]⟩
  · right
    rw [hstep]
    omega

/-- Witness for C6 at the full triangle. -/
theorem spine_termination_witness :
    (∀ n : ℕ,
      ((spineState triangleComplex n).2.2 = [] ∧
        spineState triangleComplex (n + 1) = spineState triangleComplex n) ∨
        (spineState triangleComplex n).1.length =
          (spineState triangleComplex (n + 1)).1.length + 2) ∧
    (∃ k, triangleComplex.length = (spine triangleComplex).length + 2 * k) ∧
    getPrincipalFaces (buildCofaceMap (spine triangleComplex))
      (spine triangleComplex) = [] :=
  spine_termination triangleComplex (by decide)

/-- C7: the full 2-simplex with all of its faces (7 simplices) reduces to
a single vertex. -/
theorem spine_triangle :
    triangleComplex.length = 7 ∧ spine triangleComplex = [[0]] ∧
      (spine triangleComplex).length = 1 := by
  refine ⟨by decide, by decide, by decide⟩

/-- C8: the hollow triangle is already a spine: every vertex has exactly
two cofaces, no admissible pair exists, and the engine returns the input
unchanged with size 6. -/
theorem spine_hollowTriangle :
    (∀ s ∈ hollowTriangle, dimension s = 0 →
      ((lookup (buildCofaceMap hollowTriangle) s).getD ∅).card = 2) ∧
    NoAdmissible hollowTriangle ∧
    spine hollowTriangle = hollowTriangle ∧
    hollowTriangle.length = 6 := by
  refine ⟨by decide, by unfold NoAdmissible; decide, by decide, by decide⟩

/-- C9: spine is deterministic: two runs on equal inputs produce identical
output complexes (in the embedding every container order is fixed, which
is exactly the reproducibility setting the spec demands). -/
theorem spine_deterministic :
    ∀ K1 K2 : SimplicialComplex, K1 = K2 → spine K1 = spine K2 :=
  fun _ _ h => by rw [h]

/-- Witness for C9 at the full triangle. -/
theorem spine_deterministic_witness :
    spine triangleComplex = spine triangleComplex :=
  spine_deterministic triangleComplex triangleComplex rfl

/-- C10: whenever a pair `(s, t)` stands at the front of the admissible
set, both simplices are still present, the coface map certifies `s`
principal and `t` free for `s` (so every `cofaces.at` lookup of the
collapse succeeds), and neither is a face of any other remaining member,
which is the precondition of the two unchecked removals. -/
theorem spine_selected_pair_safe :
    ∀ K : SimplicialComplex, WF K →
      ∀ (n : ℕ) (s t : Simplex) (rest : List (Simplex × Simplex)),
        (spineState K n).2.2 = (s, t) :: rest →
        s ∈ (spineState K n).1 ∧ t ∈ (spineState K n).1 ∧
        lookup (spineState K n).2.1 s = some ∅ ∧
        lookup (spineState K n).2.1 t = some {s} ∧
        (∀ u ∈ (spineState K n).1, u ≠ s → ¬ s ⊆ u) ∧
        (∀ u ∈ (spineState K n).1, u ≠ s → u ≠ t → ¬ t ⊆ u) := by
  intro K hWF n s t rest hadm
  obtain ⟨hWF2, hex, hAdm⟩ := spineState_inv hWF n
  have hpair := hAdm.2 (s, t) (by rw [hadm]; exact List.mem_cons_self _ _)
  obtain ⟨hs, htb, hcs, hct⟩ := hpair
  have ht : t ∈ (spineState K n).1 := hWF2.2.2 s hs t htb
  refine ⟨hs, ht, ?_, ?_, ?_, ?_⟩
  · rw [(hex s).1 hs, hcs]
  · rw [(hex t).1 ht, hct]
  · intro u hu hus hsub
    exact hus (principal_maximal hWF2 hs hcs u hu hsub)
  · intro u hu hus hut hsub
    rcases free_face_carrier hWF2 hs hcs hct u hu hsub with h | h
    · exact hut h
    · exact hus h

/-- Witness for C10 at the full triangle, state 0: the seeded admissible
set selects the 2-simplex with its first free edge. -/
theorem spine_selected_pair_safe_witness :
    [0, 1, 2] ∈ (spineState triangleComplex 0).1 ∧
    [1, 2] ∈ (spineState triangleComplex 0).1 ∧
    lookup (spineState triangleComplex 0).2.1 [0, 1, 2] = some ∅ ∧
    lookup (spineState triangleComplex 0).2.1 [1, 2] = some {[0, 1, 2]} ∧
    (∀ u ∈ (spineState triangleComplex 0).1, u ≠ [0, 1, 2] →
      ¬ [0, 1, 2] ⊆ u) ∧
    (∀ u ∈ (spineState triangleComplex 0).1, u ≠ [0, 1, 2] → u ≠ [1, 2] →
      ¬ [1, 2] ⊆ u) :=
  spine_selected_pair_safe triangleComplex (by decide) 0 [0, 1, 2] [1, 2] []
    (by decide)

end Aleph
